import Mathlib

/-!
# Verification of the domainscan subdomain scanner

A shallow embedding of `src/domainscan.py` (class `SubdomainScanner`) and
proofs of the specified properties.

The embedding models:
* the candidate generator `generate_subdomains` (Cartesian product over the
  alphabet `a-z0-9`, `itertools.product` enumeration order);
* the probe/retry loop of `check_subdomain` (lines 60-74), driven by a
  deterministic per-attempt response oracle, with an explicit event trace
  recording seen-set insertions, HTTP probes, and back-off sleeps;
* the dedup logic of `check_subdomain` (lines 53-57) with the seen set as
  explicit state;
* the chunked driver `scan_domain` / `scan_subdomains_chunk` (lines 80-104),
  including its progress accounting `processed = i + len(chunk)`;
* the `asyncio.Semaphore`-guarded dispatch (line 25 and line 60) as a small
  transition system of tasks.

`asyncio.gather` starts its coroutines in list order and each coroutine runs
its seen-set check/insert synchronously before its first `await`; the probe
outcomes never touch the seen set.  Hence the seen-set evolution and the
gathered result list of a chunk coincide with sequential state threading in
list order, which is how the chunk driver is embedded.
-/

namespace DomainScan

/-- `self.chars = string.ascii_lowercase + string.digits` (line 35). -/
def chars : List Char := "abcdefghijklmnopqrstuvwxyz0123456789".toList

/-- `itertools.product(chars, repeat=length)`: all `length`-tuples over
`chars`, first coordinate varying slowest (outermost loop). -/
def tuples : Nat → List (List Char)
  | 0 => [[]]
  | n + 1 => chars.flatMap (fun c => (tuples n).map (fun p => c :: p))

/-- `generate_subdomains` (lines 76-78): `[''.join(p) for p in product(chars, repeat=length)]`. -/
def generate_subdomains (length : Nat) : List String :=
  (tuples length).map (fun p => String.mk p)

theorem chars_length : chars.length = 36 := by decide

theorem tuples_length (n : Nat) : (tuples n).length = 36 ^ n := by
  induction n with
  | zero => rfl
  | succ n ih =>
    simp only [tuples, List.length_flatMap, Function.comp_def, List.length_map, ih,
      List.map_const', List.sum_replicate, chars_length, smul_eq_mul, pow_succ]
    ring

theorem generate_length (n : Nat) : (generate_subdomains n).length = 36 ^ n := by
  simp [generate_subdomains, tuples_length]

theorem tuples_mem_length {n : Nat} {p : List Char} (hp : p ∈ tuples n) :
    p.length = n := by
  induction n generalizing p with
  | zero => simp [tuples] at hp; simp [hp]
  | succ n ih =>
    simp only [tuples, List.mem_flatMap, List.mem_map] at hp
    obtain ⟨c, -, q, hq, rfl⟩ := hp
    simp [ih hq]

theorem generate_mem_length {n : Nat} {s : String} (hs : s ∈ generate_subdomains n) :
    s.length = n := by
  simp only [generate_subdomains, List.mem_map] at hs
  obtain ⟨p, hp, rfl⟩ := hs
  simpa [String.length] using tuples_mem_length hp

theorem tuples_mem_chars {n : Nat} {p : List Char} (hp : p ∈ tuples n) :
    ∀ ch ∈ p, ch ∈ chars := by
  induction n generalizing p with
  | zero =>
    simp [tuples] at hp
    subst hp
    simp
  | succ n ih =>
    simp only [tuples, List.mem_flatMap, List.mem_map] at hp
    obtain ⟨c, hc, q, hq, rfl⟩ := hp
    intro ch hch
    rcases List.mem_cons.mp hch with rfl | hch
    · exact hc
    · exact ih hq ch hch

/-- Every character of every generated label is drawn from the alphabet. -/
theorem generate_mem_chars {n : Nat} {s : String} (hs : s ∈ generate_subdomains n) :
    ∀ ch ∈ s.data, ch ∈ chars := by
  simp only [generate_subdomains, List.mem_map] at hs
  obtain ⟨p, hp, rfl⟩ := hs
  exact tuples_mem_chars hp

/-- Position of a character in the alphabet `chars`; the order in which the
outer `itertools.product` loop visits it. -/
def rank (c : Char) : Nat := chars.indexOf c

/-- Strict lexicographic order on equal-length tuples, with respect to the
alphabet's own enumeration order `a < … < z < 0 < … < 9`. -/
def lexLt : List Char → List Char → Prop
  | _, [] => False
  | [], _ :: _ => True
  | a :: as, b :: bs => rank a < rank b ∨ (a = b ∧ lexLt as bs)

/-- The order on generated subdomain strings induced by `lexLt` on their
character lists. -/
def strLexLt (s t : String) : Prop := lexLt s.data t.data

theorem lexLt_irrefl (l : List Char) : ¬ lexLt l l := by
  induction l with
  | nil => simp [lexLt]
  | cons a as ih =>
    intro h
    rcases h with h | ⟨-, h⟩
    · exact absurd h (lt_irrefl _)
    · exact ih h

theorem chars_rank_pairwise : chars.Pairwise (fun a b => rank a < rank b) := by
  decide

theorem tuples_pairwise_lexLt (n : Nat) : (tuples n).Pairwise lexLt := by
  induction n with
  | zero => simp [tuples]
  | succ n ih =>
    simp only [tuples, List.flatMap_def, List.pairwise_flatten]
    refine ⟨?_, ?_⟩
    · intro l hl
      simp only [List.mem_map] at hl
      obtain ⟨c, -, rfl⟩ := hl
      exact (ih.map _ (fun p q hpq => Or.inr ⟨rfl, hpq⟩))
    · refine (List.pairwise_map.mpr ?_)
      refine chars_rank_pairwise.imp_of_mem ?_
      intro a b ha hb hab x hx y hy
      simp only [List.mem_map] at hx hy
      obtain ⟨p, -, rfl⟩ := hx
      obtain ⟨q, -, rfl⟩ := hy
      exact Or.inl hab

theorem tuples_nodup (n : Nat) : (tuples n).Nodup := by
  refine (tuples_pairwise_lexLt n).imp ?_
  intro p q hpq
  rintro rfl
  exact lexLt_irrefl _ hpq

theorem generate_pairwise (n : Nat) :
    (generate_subdomains n).Pairwise strLexLt := by
  exact (tuples_pairwise_lexLt n).map _ (fun p q h => h)

theorem generate_nodup (n : Nat) : (generate_subdomains n).Nodup := by
  refine (tuples_nodup n).map ?_
  intro p q h
  exact congrArg String.data h

/-- `generate_subdomains 1` is exactly `"a" … "z", "0" … "9"` in order. -/
theorem generate_one :
    generate_subdomains 1 =
      ["a", "b", "c", "d", "e", "f", "g", "h", "i", "j", "k", "l", "m",
       "n", "o", "p", "q", "r", "s", "t", "u", "v", "w", "x", "y", "z",
       "0", "1", "2", "3", "4", "5", "6", "7", "8", "9"] := by
  decide

/-! ## Chunking and progress accounting

`scan_domain` (lines 95-102) iterates `for i in range(0, len(subdomains),
chunk_size)` with `chunk = subdomains[i:i + chunk_size]`, and logs a progress
value computed from `processed = i + len(chunk)`.  A chunk size of `0` would
make Python's `range` raise `ValueError`, so the embedding takes the chunk
size as a successor `c + 1`. -/

/-- The chunks `subdomains[i:i+cs]` for `i = 0, cs, 2*cs, …`, chunk size
`c + 1`. -/
def chunksOf (c : Nat) : List α → List (List α)
  | [] => []
  | x :: xs => ((x :: xs).take (c + 1)) :: chunksOf c ((x :: xs).drop (c + 1))
termination_by l => l.length
decreasing_by
  simp only [List.drop_succ_cons, List.length_drop, List.length_cons]
  omega

theorem chunksOf_flatten (c : Nat) (l : List α) : (chunksOf c l).flatten = l := by
  induction l using chunksOf.induct c with
  | case1 => simp [chunksOf]
  | case2 x xs ih =>
    rw [chunksOf]
    simp only [List.flatten_cons, ih, List.take_append_drop]

/-- The successive values `i + len(chunk)` (the `processed` count of the
progress log line), starting from offset `start`. -/
def processedFrom (start : Nat) : List (List α) → List Nat
  | [] => []
  | ck :: rest => (start + ck.length) :: processedFrom (start + ck.length) rest

/-- Fuel-driven worker for `processedNat`; the fuel only forces structural
termination and is irrelevant once it is at least `n`. -/
def processedNatGo (c : Nat) : Nat → Nat → Nat → List Nat
  | _, _, 0 => []
  | 0, _, _ + 1 => []
  | fuel + 1, start, n + 1 =>
    (start + min (c + 1) (n + 1)) ::
      processedNatGo c fuel (start + min (c + 1) (n + 1)) (n + 1 - (c + 1))

/-- Arithmetic image of `processedFrom start (chunksOf c l)`: it depends only
on `l.length = n`. -/
def processedNat (c : Nat) (start n : Nat) : List Nat :=
  processedNatGo c n start n

theorem processedNatGo_fuel (c : Nat) : ∀ fuel₁ fuel₂ start n, n ≤ fuel₁ → n ≤ fuel₂ →
    processedNatGo c fuel₁ start n = processedNatGo c fuel₂ start n := by
  intro fuel₁
  induction fuel₁ with
  | zero =>
    intro fuel₂ start n h1 _
    interval_cases n
    cases fuel₂ <;> rfl
  | succ f₁ ih =>
    intro fuel₂ start n h1 h2
    match n, fuel₂ with
    | 0, fuel₂ => cases fuel₂ <;> rfl
    | n + 1, f₂ + 1 =>
      rw [processedNatGo, processedNatGo]
      exact congrArg _ (ih f₂ _ _ (by omega) (by omega))

theorem processedNat_zero (c start : Nat) : processedNat c start 0 = [] := rfl

theorem processedNat_succ (c start n : Nat) :
    processedNat c start (n + 1) =
      (start + min (c + 1) (n + 1)) ::
        processedNat c (start + min (c + 1) (n + 1)) (n + 1 - (c + 1)) := by
  rw [processedNat, processedNat, processedNatGo]
  exact congrArg _ (processedNatGo_fuel c n _ _ _ (by omega) (by omega))

theorem processedFrom_chunksOf (c : Nat) (l : List α) (start : Nat) :
    processedFrom start (chunksOf c l) = processedNat c start l.length := by
  induction l using chunksOf.induct c generalizing start with
  | case1 =>
    rw [chunksOf]
    simp only [processedFrom, List.length_nil]
    rw [processedNat_zero]
  | case2 x xs ih =>
    rw [chunksOf]
    simp only [processedFrom]
    rw [List.length_cons, processedNat_succ]
    have htake : ((x :: xs).take (c + 1)).length = min (c + 1) (xs.length + 1) := by
      simp only [List.length_take, List.length_cons]
    have hdrop : ((x :: xs).drop (c + 1)).length = xs.length + 1 - (c + 1) := by
      simp only [List.length_drop, List.length_cons]
    rw [htake, ih, hdrop]

theorem processedNat_head_lt (c : Nat) :
    ∀ n start x, x ∈ (processedNat c start n).head? → start < x := by
  intro n
  induction n using Nat.strong_induction_on with
  | _ n ih =>
    intro start x hx
    match n with
    | 0 => simp [processedNat_zero] at hx
    | n + 1 =>
      rw [processedNat_succ] at hx
      simp only [List.head?_cons, Option.mem_def, Option.some.injEq] at hx
      omega

/-- Within one length, the `processed` values are strictly increasing. -/
theorem processedNat_chain (c : Nat) :
    ∀ n start, List.Chain' (· < ·) (processedNat c start n) := by
  intro n
  induction n using Nat.strong_induction_on with
  | _ n ih =>
    intro start
    match n with
    | 0 => simp [processedNat_zero]
    | n + 1 =>
      rw [processedNat_succ]
      refine List.chain'_cons'.mpr ⟨?_, ih (n + 1 - (c + 1)) (by omega) _⟩
      intro y hy
      have := processedNat_head_lt c (n + 1 - (c + 1)) (start + min (c + 1) (n + 1)) y hy
      omega

/-! ## The probe loop and deduplication of `check_subdomain`

`check_subdomain` (lines 51-74) is driven here by a deterministic response
oracle `resp : String → Nat → AttemptOutcome` giving, for each FQC and each
attempt number, what `self.session.get(url)` does on that attempt.  The
visible behaviour is recorded as an event trace. -/

/-- What one `session.get` attempt produces.

* `ok titleTag`: HTTP status 200 and the body was read.  `titleTag` models
  BeautifulSoup's `soup.title`: `none` when no `<title>` tag exists, and
  `some s` when the tag exists with `s` modelling `soup.title.string`
  (`Tag.string` is Python `None` — here `none` — when the tag is empty or
  has multiple children).
* `badStatus`: a response arrived with a status other than 200 (no exception
  is raised; the loop falls through to the next attempt with no sleep).
* `error`: `session.get` (or the body read) raised — connection, timeout or
  protocol error — caught by the `except` clause. -/
inductive AttemptOutcome
  | ok (titleTag : Option (Option String))
  | badStatus
  | error
deriving DecidableEq

/-- Observable steps of `check_subdomain`:
`insert f` = `self.seen_subdomains.add(f)` (line 57);
`probe f` = one `self.session.get("http://" + f)` network call (line 63);
`sleep k` = `await asyncio.sleep(0.1 * k)` (line 72), recorded in units of
the 0.1 s base delay, so `k = attempt + 1`. -/
inductive Event
  | insert (fqc : String)
  | probe (fqc : String)
  | sleep (tenths : Nat)
deriving DecidableEq

/-- `title = soup.title.string if soup.title else "No Title"` (line 67).
The result models a Python `Optional[str]`: Python `None` is `none`. -/
def titleOf : Option (Option String) → Option String
  | none => some "No Title"
  | some s => s

/-- The retry loop `for attempt in range(self.max_retries)` (lines 61-74)
starting at attempt number `attempt` with `r` attempts remaining, returning
the value returned by `check_subdomain` (from line 68 or line 74) together
with the trace of network calls and sleeps. -/
def probeFrom (resp : Nat → AttemptOutcome) (fqc : String) :
    Nat → Nat → Option (String × Option String) × List Event
  | _, 0 => (none, [])
  | attempt, r + 1 =>
    match resp attempt with
    | .ok tt => (some (fqc, titleOf tt), [.probe fqc])
    | .badStatus =>
      let rest := probeFrom resp fqc (attempt + 1) r
      (rest.1, .probe fqc :: rest.2)
    | .error =>
      let rest := probeFrom resp fqc (attempt + 1) r
      (rest.1, .probe fqc :: .sleep (attempt + 1) :: rest.2)

/-- The whole retry loop, attempts `0, …, maxRetries - 1`. -/
def probe (resp : Nat → AttemptOutcome) (fqc : String) (maxRetries : Nat) :
    Option (String × Option String) × List Event :=
  probeFrom resp fqc 0 maxRetries

/-- `f"{subdomain}.{domain}"` (line 53). -/
def fqcOf (label domain : String) : String := label ++ "." ++ domain

/-- Return value and post-state of one `check_subdomain` call. -/
structure CheckResult where
  result : Option (String × Option String)
  seen : List String
  trace : List Event

/-- `check_subdomain` (lines 51-74): look up the FQC in the seen set; on a
hit return `None` untouched (lines 54-55); otherwise add the FQC (line 57)
and run the semaphore-guarded retry loop. -/
def check_subdomain (resp : String → Nat → AttemptOutcome) (maxRetries : Nat)
    (seen : List String) (label domain : String) : CheckResult :=
  let fqc := fqcOf label domain
  if fqc ∈ seen then ⟨none, seen, []⟩
  else
    let p := probe (resp fqc) fqc maxRetries
    ⟨p.1, fqc :: seen, Event.insert fqc :: p.2⟩

/-- Aggregate state of a chunk / length / domain scan. -/
structure ScanResult where
  results : List (String × Option String)
  seen : List String
  trace : List Event

/-- `scan_subdomains_chunk` (lines 80-84): run `check_subdomain` for every
label of the chunk and keep the non-`None` results in task order.
(`asyncio.gather` starts the coroutines in list order; each one performs its
seen-set check/insert before its first suspension and the probes never read
the seen set, so sequential threading is observationally faithful.) -/
def scan_subdomains_chunk (resp : String → Nat → AttemptOutcome) (mr : Nat)
    (domain : String) : List String → List String → ScanResult
  | [], seen => ⟨[], seen, []⟩
  | label :: rest, seen =>
    let c := check_subdomain resp mr seen label domain
    let r := scan_subdomains_chunk resp mr domain rest c.seen
    ⟨c.result.toList ++ r.results, r.seen, c.trace ++ r.trace⟩

/-- The inner chunk loop of `scan_domain` (lines 95-98) over an explicit
chunk list, extending `all_results` chunk by chunk. -/
def scanChunks (resp : String → Nat → AttemptOutcome) (mr : Nat)
    (domain : String) : List (List String) → List String → ScanResult
  | [], seen => ⟨[], seen, []⟩
  | ck :: cks, seen =>
    let r1 := scan_subdomains_chunk resp mr domain ck seen
    let r2 := scanChunks resp mr domain cks r1.seen
    ⟨r1.results ++ r2.results, r2.seen, r1.trace ++ r2.trace⟩

/-- The outer length loop of `scan_domain` (lines 91-98) over an explicit
length list. -/
def scanLengths (resp : String → Nat → AttemptOutcome) (mr c : Nat)
    (domain : String) : List Nat → List String → ScanResult
  | [], seen => ⟨[], seen, []⟩
  | L :: Ls, seen =>
    let r1 := scanChunks resp mr domain (chunksOf c (generate_subdomains L)) seen
    let r2 := scanLengths resp mr c domain Ls r1.seen
    ⟨r1.results ++ r2.results, r2.seen, r1.trace ++ r2.trace⟩

/-- `scan_domain` (lines 86-104) with chunk size `c + 1`: lengths
`range(min_length, max_length + 1)` in ascending order, each length's
candidates chunked in generator order.  `seen` is the engine's
`self.seen_subdomains` at call time (`[]` for a fresh engine). -/
def scan_domain (resp : String → Nat → AttemptOutcome) (mr c : Nat)
    (domain : String) (minLength maxLength : Nat) (seen : List String) : ScanResult :=
  scanLengths resp mr c domain (List.range' minLength (maxLength + 1 - minLength)) seen

/-- All candidate labels of a scan, lengths ascending, generator order within
a length. -/
def allLabels (minLength maxLength : Nat) : List String :=
  (List.range' minLength (maxLength + 1 - minLength)).flatMap generate_subdomains

/-- Specification-level description of `scan_domain`'s return value (spec
§4.3): the `Found` outcomes of probing every candidate once, lengths
ascending, generator order within a length — no chunk structure, no seen
set. -/
def specFoundOutcomes (resp : String → Nat → AttemptOutcome) (mr : Nat)
    (domain : String) (minLength maxLength : Nat) : List (String × Option String) :=
  (allLabels minLength maxLength).filterMap
    (fun label => (probe (resp (fqcOf label domain)) (fqcOf label domain) mr).1)

/-- The `processed` values of the progress lines logged by `scan_domain`
(lines 100-102) over a whole domain scan: per length, `i + len(chunk)` for
each chunk, lengths in ascending order. -/
def domainProcessed (c : Nat) (minLength maxLength : Nat) : List Nat :=
  (List.range' minLength (maxLength + 1 - minLength)).flatMap
    (fun L => processedFrom 0 (chunksOf c (generate_subdomains L)))

/-! ## Properties of the probe loop -/

/-- Recognizer for network-call events. -/
def isProbe : Event → Bool
  | .probe _ => true
  | _ => false

/-- The sleep durations of a trace, in order, in units of the 0.1 s base
delay. -/
def sleepsOf (t : List Event) : List Nat :=
  t.filterMap (fun e => match e with | .sleep k => some k | _ => none)

theorem probeFrom_trace_events (resp : Nat → AttemptOutcome) (fqc : String) :
    ∀ r attempt e, e ∈ (probeFrom resp fqc attempt r).2 →
      e = .probe fqc ∨ ∃ k, e = .sleep k := by
  intro r
  induction r with
  | zero => intro attempt e he; simp [probeFrom] at he
  | succ r ih =>
    intro attempt e he
    rw [probeFrom] at he
    match h : resp attempt with
    | .ok tt => rw [h] at he; simp at he; exact Or.inl he
    | .badStatus =>
      rw [h] at he
      simp only [List.mem_cons] at he
      rcases he with rfl | he
      · exact Or.inl rfl
      · exact ih (attempt + 1) e he
    | .error =>
      rw [h] at he
      simp only [List.mem_cons] at he
      rcases he with rfl | he
      · exact Or.inl rfl
      rcases he with rfl | he
      · exact Or.inr ⟨attempt + 1, rfl⟩
      · exact ih (attempt + 1) e he

/-- When every attempt fails, the loop returns `None`, makes exactly one
network call per attempt, and sleeps `0.1 * (i + 1)` exactly after each
attempt `i` that raised (and not after a non-200 response). -/
theorem probeFrom_all_fail (resp : Nat → AttemptOutcome) (fqc : String) :
    ∀ r attempt, (∀ i ∈ List.range' attempt r, ∀ tt, resp i ≠ .ok tt) →
      (probeFrom resp fqc attempt r).1 = none ∧
      (probeFrom resp fqc attempt r).2.countP isProbe = r ∧
      sleepsOf (probeFrom resp fqc attempt r).2 =
        (List.range' attempt r).filterMap
          (fun i => match resp i with | .error => some (i + 1) | _ => none) := by
  intro r
  induction r with
  | zero => intro attempt _; exact ⟨rfl, rfl, rfl⟩
  | succ r ih =>
    intro attempt hfail
    have hmem : attempt ∈ List.range' attempt (r + 1) := by
      rw [List.range'_succ]; exact List.mem_cons_self ..
    have hrest : ∀ i ∈ List.range' (attempt + 1) r, ∀ tt, resp i ≠ .ok tt := by
      intro i hi
      exact hfail i (by rw [List.range'_succ]; exact List.mem_cons_of_mem _ hi)
    obtain ⟨ih1, ih2, ih3⟩ := ih (attempt + 1) hrest
    rw [probeFrom]
    match h : resp attempt with
    | .ok tt => exact absurd h (hfail attempt hmem tt)
    | .badStatus =>
      refine ⟨ih1, ?_, ?_⟩
      · simp [List.countP_cons, isProbe, ih2]
      · rw [List.range'_succ]
        simp only [sleepsOf, List.filterMap_cons, h]
        exact ih3
    | .error =>
      refine ⟨ih1, ?_, ?_⟩
      · simp [List.countP_cons, isProbe, ih2]
      · rw [List.range'_succ]
        simp only [sleepsOf, List.filterMap_cons, h]
        exact congrArg _ ih3

/-- If attempt `i` is the first to come back with status 200, the loop
returns `(fqc, soup.title.string if soup.title else "No Title")`. -/
theorem probeFrom_first_ok (resp : Nat → AttemptOutcome) (fqc : String) :
    ∀ r attempt i tt, attempt ≤ i → i < attempt + r → resp i = .ok tt →
      (∀ j, attempt ≤ j → j < i → ∀ tt', resp j ≠ .ok tt') →
      (probeFrom resp fqc attempt r).1 = some (fqc, titleOf tt) := by
  intro r
  induction r with
  | zero => intro attempt i tt h1 h2 _ _; omega
  | succ r ih =>
    intro attempt i tt h1 h2 hok hfirst
    rw [probeFrom]
    rcases Nat.eq_or_lt_of_le h1 with rfl | hlt
    · rw [hok]
    · have hne : ∀ tt', resp attempt ≠ .ok tt' := fun tt' =>
        hfirst attempt (le_refl _) hlt tt'
      have hrec := ih (attempt + 1) i tt hlt (by omega) hok
        (fun j hj hji tt' => hfirst j (by omega) hji tt')
      match h : resp attempt with
      | .ok tt' => exact absurd h (hne tt')
      | .badStatus => exact hrec
      | .error => exact hrec

/-- A status-200 response on the first attempt returns
`(fqc, soup.title.string if soup.title else "No Title")`. -/
theorem probe_ok_first (resp : Nat → AttemptOutcome) (fqc : String) (m : Nat)
    (tt : Option (Option String)) (h : resp 0 = .ok tt) :
    (probe resp fqc (m + 1)).1 = some (fqc, titleOf tt) := by
  rw [probe, probeFrom, h]

/-! ## Properties of the dedup logic -/

theorem check_subdomain_seen (resp : String → Nat → AttemptOutcome) (mr : Nat)
    (seen : List String) (label domain : String)
    (h : fqcOf label domain ∈ seen) :
    check_subdomain resp mr seen label domain = ⟨none, seen, []⟩ := by
  simp [check_subdomain, h]

theorem check_subdomain_fresh (resp : String → Nat → AttemptOutcome) (mr : Nat)
    (seen : List String) (label domain : String)
    (h : fqcOf label domain ∉ seen) :
    check_subdomain resp mr seen label domain =
      ⟨(probe (resp (fqcOf label domain)) (fqcOf label domain) mr).1,
       fqcOf label domain :: seen,
       Event.insert (fqcOf label domain) ::
         (probe (resp (fqcOf label domain)) (fqcOf label domain) mr).2⟩ := by
  simp [check_subdomain, h]

theorem check_subdomain_seen_mono (resp : String → Nat → AttemptOutcome) (mr : Nat)
    (seen : List String) (label domain : String) :
    seen ⊆ (check_subdomain resp mr seen label domain).seen := by
  by_cases h : fqcOf label domain ∈ seen
  · rw [check_subdomain_seen _ _ _ _ _ h]
    exact fun _ hx => hx
  · rw [check_subdomain_fresh _ _ _ _ _ h]
    exact List.subset_cons_self _ _

theorem check_subdomain_mem_seen (resp : String → Nat → AttemptOutcome) (mr : Nat)
    (seen : List String) (label domain : String) :
    fqcOf label domain ∈ (check_subdomain resp mr seen label domain).seen := by
  by_cases h : fqcOf label domain ∈ seen
  · rw [check_subdomain_seen _ _ _ _ _ h]; exact h
  · rw [check_subdomain_fresh _ _ _ _ _ h]; exact List.mem_cons_self ..

/-- A network call on `f` can occur inside a `check_subdomain` call only if
`f` is that call's FQC and it was not yet seen. -/
theorem check_subdomain_probe_mem (resp : String → Nat → AttemptOutcome) (mr : Nat)
    (seen : List String) (label domain : String) (f : String)
    (h : Event.probe f ∈ (check_subdomain resp mr seen label domain).trace) :
    f = fqcOf label domain ∧ fqcOf label domain ∉ seen := by
  by_cases hs : fqcOf label domain ∈ seen
  · rw [check_subdomain_seen _ _ _ _ _ hs] at h
    simp at h
  · rw [check_subdomain_fresh _ _ _ _ _ hs] at h
    simp only [List.mem_cons] at h
    rcases h with h | h
    · exact absurd h (by simp)
    · rcases probeFrom_trace_events _ _ mr 0 _ h with h' | ⟨k, h'⟩
      · exact ⟨(Event.probe.injEq ..).mp h', hs⟩
      · exact absurd h' (by simp)

/-- One engine lifetime: a sequence of `check_subdomain` calls (arbitrary
labels and domains) threading `self.seen_subdomains`, returning the event
trace of each call. -/
def runCalls (resp : String → Nat → AttemptOutcome) (mr : Nat) :
    List (String × String) → List String → List (List Event)
  | [], _ => []
  | (label, domain) :: cs, seen =>
    let c := check_subdomain resp mr seen label domain
    c.trace :: runCalls resp mr cs c.seen

theorem runCalls_probe_zero (resp : String → Nat → AttemptOutcome) (mr : Nat)
    (f : String) : ∀ calls seen, f ∈ seen →
      (runCalls resp mr calls seen).countP (fun tr => decide (Event.probe f ∈ tr)) = 0 := by
  intro calls
  induction calls with
  | nil => intro seen _; rfl
  | cons c cs ih =>
    intro seen hf
    obtain ⟨label, domain⟩ := c
    rw [runCalls]
    rw [List.countP_cons]
    have hnp : Event.probe f ∉ (check_subdomain resp mr seen label domain).trace := by
      intro hmem
      obtain ⟨rfl, hns⟩ := check_subdomain_probe_mem resp mr seen label domain f hmem
      exact hns hf
    have h0 := ih _ (check_subdomain_seen_mono resp mr seen label domain hf)
    simp [hnp, h0]

/-- Over any engine lifetime, at most one `check_subdomain` call performs
network traffic for a given FQC. -/
theorem runCalls_probe_once (resp : String → Nat → AttemptOutcome) (mr : Nat)
    (f : String) : ∀ calls seen,
      (runCalls resp mr calls seen).countP (fun tr => decide (Event.probe f ∈ tr)) ≤ 1 := by
  intro calls
  induction calls with
  | nil => intro seen; exact Nat.zero_le 1
  | cons c cs ih =>
    intro seen
    obtain ⟨label, domain⟩ := c
    rw [runCalls]
    rw [List.countP_cons]
    by_cases hmem : Event.probe f ∈ (check_subdomain resp mr seen label domain).trace
    · obtain ⟨rfl, -⟩ := check_subdomain_probe_mem resp mr seen label domain f hmem
      have : (runCalls resp mr cs (check_subdomain resp mr seen label domain).seen).countP
          (fun tr => decide (Event.probe (fqcOf label domain) ∈ tr)) = 0 :=
        runCalls_probe_zero resp mr _ cs _
          (check_subdomain_mem_seen resp mr seen label domain)
      simp [hmem, this]
    · have h1 := ih (check_subdomain resp mr seen label domain).seen
      simpa [hmem] using h1

/-! ## Refinement: the chunked, stateful scan computes the spec-level result -/

theorem fqcOf_inj (domain : String) {l₁ l₂ : String}
    (h : fqcOf l₁ domain = fqcOf l₂ domain) : l₁ = l₂ := by
  have hd := congrArg String.data h
  simp only [fqcOf, String.data_append, List.append_assoc] at hd
  have h1 : l₁.data = l₂.data :=
    List.append_left_injective (".".data ++ domain.data) hd
  cases l₁; cases l₂
  exact congrArg String.mk h1

theorem allLabels_nodup (minLength maxLength : Nat) :
    (allLabels minLength maxLength).Nodup := by
  rw [allLabels, List.nodup_flatMap]
  refine ⟨fun L _ => generate_nodup L, ?_⟩
  refine (List.nodup_range' _ _).imp ?_
  intro L L' hne s hs hs'
  exact hne (by rw [← generate_mem_length hs, ← generate_mem_length hs'])

theorem allLabels_map_fqc_nodup (domain : String) (minLength maxLength : Nat) :
    ((allLabels minLength maxLength).map (fqcOf · domain)).Nodup :=
  (allLabels_nodup minLength maxLength).map (fun _ _ h => fqcOf_inj domain h)

/-- Probing one chunk whose FQCs are fresh and mutually distinct: the kept
results are exactly the non-`None` probe outcomes in generator order, and the
seen set grows by exactly the chunk's FQCs. -/
theorem scan_chunk_spec (resp : String → Nat → AttemptOutcome) (mr : Nat)
    (domain : String) : ∀ labels seen,
    (∀ l ∈ labels, fqcOf l domain ∉ seen) →
    (labels.map (fqcOf · domain)).Nodup →
    (scan_subdomains_chunk resp mr domain labels seen).results =
      labels.filterMap (fun l => (probe (resp (fqcOf l domain)) (fqcOf l domain) mr).1) ∧
    (scan_subdomains_chunk resp mr domain labels seen).seen =
      (labels.map (fqcOf · domain)).reverse ++ seen := by
  intro labels
  induction labels with
  | nil => intro seen _ _; exact ⟨rfl, rfl⟩
  | cons l ls ih =>
    intro seen hfresh hnd
    have hl : fqcOf l domain ∉ seen := hfresh l (List.mem_cons_self ..)
    simp only [List.map_cons, List.nodup_cons] at hnd
    have hfresh' : ∀ x ∈ ls, fqcOf x domain ∉ fqcOf l domain :: seen := by
      intro x hx
      simp only [List.mem_cons, not_or]
      constructor
      · intro he
        exact hnd.1 (he ▸ List.mem_map_of_mem _ hx)
      · exact hfresh x (List.mem_cons_of_mem _ hx)
    have hstep := check_subdomain_fresh resp mr seen l domain hl
    obtain ⟨ih1, ih2⟩ := ih (fqcOf l domain :: seen) hfresh' hnd.2
    rw [scan_subdomains_chunk]
    constructor
    · simp only [hstep, ih1, List.filterMap_cons]
      cases (probe (resp (fqcOf l domain)) (fqcOf l domain) mr).1 <;> rfl
    · simp only [hstep, ih2, List.map_cons, List.reverse_cons, List.append_assoc,
        List.singleton_append]

/-- `scanChunks` over any chunk partition of a fresh, duplicate-free label
list behaves like one pass over the concatenation. -/
theorem scanChunks_spec (resp : String → Nat → AttemptOutcome) (mr : Nat)
    (domain : String) : ∀ cks seen,
    (∀ l ∈ cks.flatten, fqcOf l domain ∉ seen) →
    (cks.flatten.map (fqcOf · domain)).Nodup →
    (scanChunks resp mr domain cks seen).results =
      cks.flatten.filterMap
        (fun l => (probe (resp (fqcOf l domain)) (fqcOf l domain) mr).1) ∧
    (scanChunks resp mr domain cks seen).seen =
      (cks.flatten.map (fqcOf · domain)).reverse ++ seen := by
  intro cks
  induction cks with
  | nil => intro seen _ _; exact ⟨rfl, rfl⟩
  | cons ck cks ih =>
    intro seen hfresh hnd
    simp only [List.flatten_cons, List.map_append, List.nodup_append] at hnd
    obtain ⟨hnd1, hnd2, hdisj⟩ := hnd
    have hfresh1 : ∀ l ∈ ck, fqcOf l domain ∉ seen := fun l hl =>
      hfresh l (by simp [List.flatten_cons, hl])
    obtain ⟨h1r, h1s⟩ := scan_chunk_spec resp mr domain ck seen hfresh1 hnd1
    have hfresh' : ∀ l ∈ cks.flatten,
        fqcOf l domain ∉ (ck.map (fqcOf · domain)).reverse ++ seen := by
      intro l hl
      simp only [List.mem_append, List.mem_reverse, not_or]
      constructor
      · intro hmem
        exact hdisj hmem (List.mem_map_of_mem _ hl)
      · exact hfresh l (by simp [List.flatten_cons, hl])
    rw [← h1s] at hfresh'
    obtain ⟨h2r, h2s⟩ := ih _ hfresh' hnd2
    rw [scanChunks]
    constructor
    · show _ ++ _ = _
      rw [h1r, h2r, List.flatten_cons, List.filterMap_append]
    · show (scanChunks resp mr domain cks _).seen = _
      rw [h2s, h1s, List.flatten_cons, List.map_append, List.reverse_append,
        List.append_assoc]

/-- The length loop: with fresh, duplicate-free FQCs across all lengths, the
whole scan is one pass over the concatenated candidate lists. -/
theorem scanLengths_spec (resp : String → Nat → AttemptOutcome) (mr c : Nat)
    (domain : String) : ∀ Ls seen,
    (∀ l ∈ Ls.flatMap generate_subdomains, fqcOf l domain ∉ seen) →
    ((Ls.flatMap generate_subdomains).map (fqcOf · domain)).Nodup →
    (scanLengths resp mr c domain Ls seen).results =
      (Ls.flatMap generate_subdomains).filterMap
        (fun l => (probe (resp (fqcOf l domain)) (fqcOf l domain) mr).1) ∧
    (scanLengths resp mr c domain Ls seen).seen =
      ((Ls.flatMap generate_subdomains).map (fqcOf · domain)).reverse ++ seen := by
  intro Ls
  induction Ls with
  | nil => intro seen _ _; exact ⟨rfl, rfl⟩
  | cons L Ls ih =>
    intro seen hfresh hnd
    simp only [List.flatMap_cons, List.map_append, List.nodup_append] at hnd
    obtain ⟨hnd1, hnd2, hdisj⟩ := hnd
    have hflat : (chunksOf c (generate_subdomains L)).flatten = generate_subdomains L :=
      chunksOf_flatten c _
    have hfresh1 : ∀ l ∈ (chunksOf c (generate_subdomains L)).flatten,
        fqcOf l domain ∉ seen := by
      rw [hflat]
      intro l hl
      exact hfresh l (by simp [List.flatMap_cons, hl])
    obtain ⟨h1r, h1s⟩ := scanChunks_spec resp mr domain (chunksOf c (generate_subdomains L))
      seen hfresh1 (by rw [hflat]; exact hnd1)
    rw [hflat] at h1r h1s
    have hfresh' : ∀ l ∈ Ls.flatMap generate_subdomains,
        fqcOf l domain ∉ ((generate_subdomains L).map (fqcOf · domain)).reverse ++ seen := by
      intro l hl
      simp only [List.mem_append, List.mem_reverse, not_or]
      constructor
      · intro hmem
        exact hdisj hmem (List.mem_map_of_mem _ hl)
      · exact hfresh l (by simp [List.flatMap_cons, hl])
    rw [← h1s] at hfresh'
    obtain ⟨h2r, h2s⟩ := ih _ hfresh' hnd2
    rw [scanLengths]
    constructor
    · show _ ++ _ = _
      rw [h1r, h2r, List.flatMap_cons, List.filterMap_append]
    · show (scanLengths resp mr c domain Ls _).seen = _
      rw [h2s, h1s, List.flatMap_cons, List.map_append, List.reverse_append,
        List.append_assoc]

/-- A fresh engine's `scan_domain` returns exactly the spec-level `Found`
aggregate, and ends with every candidate FQC (and nothing else) in the seen
set. -/
theorem scan_domain_spec (resp : String → Nat → AttemptOutcome) (mr c : Nat)
    (domain : String) (minLength maxLength : Nat) :
    (scan_domain resp mr c domain minLength maxLength []).results =
      specFoundOutcomes resp mr domain minLength maxLength ∧
    (scan_domain resp mr c domain minLength maxLength []).seen =
      ((allLabels minLength maxLength).map (fqcOf · domain)).reverse := by
  obtain ⟨hr, hs⟩ := scanLengths_spec resp mr c domain
    (List.range' minLength (maxLength + 1 - minLength)) []
    (fun l _ h => (List.not_mem_nil _ h))
    (allLabels_map_fqc_nodup domain minLength maxLength)
  refine ⟨hr, ?_⟩
  rw [scan_domain, hs, List.append_nil]
  rfl

/-! ## Re-scanning with a saturated seen set -/

theorem scan_chunk_all_seen (resp : String → Nat → AttemptOutcome) (mr : Nat)
    (domain : String) : ∀ labels seen,
    (∀ l ∈ labels, fqcOf l domain ∈ seen) →
    scan_subdomains_chunk resp mr domain labels seen = ⟨[], seen, []⟩ := by
  intro labels
  induction labels with
  | nil => intro seen _; rfl
  | cons l ls ih =>
    intro seen hseen
    rw [scan_subdomains_chunk]
    rw [check_subdomain_seen resp mr seen l domain (hseen l (List.mem_cons_self ..))]
    rw [ih seen (fun x hx => hseen x (List.mem_cons_of_mem _ hx))]
    rfl

theorem scanChunks_all_seen (resp : String → Nat → AttemptOutcome) (mr : Nat)
    (domain : String) : ∀ cks seen,
    (∀ l ∈ cks.flatten, fqcOf l domain ∈ seen) →
    scanChunks resp mr domain cks seen = ⟨[], seen, []⟩ := by
  intro cks
  induction cks with
  | nil => intro seen _; rfl
  | cons ck cks ih =>
    intro seen hseen
    rw [scanChunks]
    rw [scan_chunk_all_seen resp mr domain ck seen
      (fun l hl => hseen l (by simp [List.flatten_cons, hl]))]
    rw [ih seen (fun l hl => hseen l (by simp [List.flatten_cons, hl]))]
    rfl

theorem scanLengths_all_seen (resp : String → Nat → AttemptOutcome) (mr c : Nat)
    (domain : String) : ∀ Ls seen,
    (∀ l ∈ Ls.flatMap generate_subdomains, fqcOf l domain ∈ seen) →
    scanLengths resp mr c domain Ls seen = ⟨[], seen, []⟩ := by
  intro Ls
  induction Ls with
  | nil => intro seen _; rfl
  | cons L Ls ih =>
    intro seen hseen
    rw [scanLengths]
    rw [scanChunks_all_seen resp mr domain _ seen ?h1]
    case h1 =>
      rw [chunksOf_flatten]
      intro l hl
      exact hseen l (by simp [List.flatMap_cons, hl])
    rw [ih seen (fun l hl => hseen l (by simp [List.flatMap_cons, hl]))]
    rfl

/-- `scan_domain` against a seen set already containing every candidate FQC
returns nothing, touches nothing, and performs no network activity. -/
theorem scan_domain_all_seen (resp : String → Nat → AttemptOutcome) (mr c : Nat)
    (domain : String) (minLength maxLength : Nat) (seen : List String)
    (hseen : ∀ l ∈ allLabels minLength maxLength, fqcOf l domain ∈ seen) :
    scan_domain resp mr c domain minLength maxLength seen = ⟨[], seen, []⟩ :=
  scanLengths_all_seen resp mr c domain _ seen hseen

/-! ## The admission limiter

`self.rate_limiter = asyncio.Semaphore(concurrent_requests)` (line 25), used
as `async with self.rate_limiter:` around the whole retry loop (line 60).
Concurrent dispatch is modelled as a transition system over the phases of the
chunk's probe tasks: a task is admitted only while fewer than `limit` tasks
are inside the guarded block, performs its (finitely many) guarded steps, and
leaves the block on any exit path.  The scheduler is nondeterministic. -/

/-- Phase of one probe task: not yet admitted, inside the
`async with self.rate_limiter` block with `w` guarded steps left, or done
(the semaphore slot released). -/
inductive TaskPhase
  | pending (w : Nat)
  | running (w : Nat)
  | finished
deriving DecidableEq

/-- A task currently holding a semaphore slot, i.e. a dispatched-but-not-
completed probe operation. -/
def isRunning : TaskPhase → Bool
  | .running _ => true
  | _ => false

/-- Semaphore value `limit = concurrent_requests` plus the phases of the
dispatched tasks. -/
structure SemState where
  limit : Nat
  tasks : List TaskPhase
deriving DecidableEq

/-- Number of in-flight probe operations. -/
def inFlight (s : SemState) : Nat := s.tasks.countP isRunning

/-- One scheduler step: admit a pending task when a slot is free, advance an
admitted task, or complete an admitted task (releasing its slot on every exit
path). -/
inductive SemStep : SemState → SemState → Prop
  | acquire (s : SemState) (i w : Nat) (hi : s.tasks[i]? = some (.pending w))
      (hcap : inFlight s < s.limit) :
      SemStep s ⟨s.limit, s.tasks.set i (.running w)⟩
  | work (s : SemState) (i w : Nat) (hi : s.tasks[i]? = some (.running (w + 1))) :
      SemStep s ⟨s.limit, s.tasks.set i (.running w)⟩
  | release (s : SemState) (i : Nat) (hi : s.tasks[i]? = some (.running 0)) :
      SemStep s ⟨s.limit, s.tasks.set i .finished⟩

theorem countP_set (p : TaskPhase → Bool) :
    ∀ (l : List TaskPhase) (i : Nat) (a b : TaskPhase), l[i]? = some b →
      (l.set i a).countP p + (if p b then 1 else 0) =
        l.countP p + (if p a then 1 else 0) := by
  intro l
  induction l with
  | nil => intro i a b h; simp at h
  | cons x xs ih =>
    intro i a b h
    match i with
    | 0 =>
      simp only [List.getElem?_cons_zero, Option.some.injEq] at h
      subst h
      simp only [List.set_cons_zero, List.countP_cons]
      omega
    | i + 1 =>
      simp only [List.getElem?_cons_succ] at h
      simp only [List.set_cons_succ, List.countP_cons]
      have := ih i a b h
      omega

theorem semStep_inv {s s' : SemState} (h : SemStep s s') (hs : inFlight s ≤ s.limit) :
    inFlight s' ≤ s'.limit ∧ s'.limit = s.limit := by
  cases h with
  | acquire i w hi hcap =>
    have := countP_set isRunning s.tasks i (.running w) (.pending w) hi
    simp [isRunning] at this
    refine ⟨?_, rfl⟩
    simp only [inFlight] at *
    omega
  | work i w hi =>
    have := countP_set isRunning s.tasks i (.running w) (.running (w + 1)) hi
    simp [isRunning] at this
    refine ⟨?_, rfl⟩
    simp only [inFlight] at *
    omega
  | release i hi =>
    have := countP_set isRunning s.tasks i .finished (.running 0) hi
    simp [isRunning] at this
    refine ⟨?_, rfl⟩
    simp only [inFlight] at *
    omega

/-- The limiter invariant: from any state within capacity — in particular
the start of a chunk, where no probe is dispatched — every reachable state
stays within capacity. -/
theorem inFlight_le_limit (s₀ s : SemState) (h0 : inFlight s₀ ≤ s₀.limit)
    (h : Relation.ReflTransGen SemStep s₀ s) : inFlight s ≤ s.limit := by
  induction h with
  | refl => exact h0
  | tail _ hstep ih => exact (semStep_inv hstep ih).1

/-! ## The claimed properties -/

/-- C1: for every engine instance and every FQC, `check_subdomain` performs
the HTTP probe at most once over the engine's lifetime: over any sequence of
calls from the fresh seen set, at most one call's trace contains a network
probe of a given FQC; a first (fresh) call for an FQC inserts it into the
seen set as its very first event, before any network call; every later call
for an already-seen FQC returns `None` with unchanged seen set and an empty
trace (no network call, no sleep). -/
theorem claim_C1 (resp : String → Nat → AttemptOutcome) (mr : Nat)
    (calls : List (String × String)) (f : String) :
    (runCalls resp mr calls []).countP (fun tr => decide (Event.probe f ∈ tr)) ≤ 1
    ∧ (∀ seen label domain, fqcOf label domain ∉ seen →
        (check_subdomain resp mr seen label domain).trace =
          Event.insert (fqcOf label domain) ::
            (probe (resp (fqcOf label domain)) (fqcOf label domain) mr).2
        ∧ fqcOf label domain ∈ (check_subdomain resp mr seen label domain).seen)
    ∧ (∀ seen label domain, fqcOf label domain ∈ seen →
        check_subdomain resp mr seen label domain = ⟨none, seen, []⟩) := by
  refine ⟨runCalls_probe_once resp mr f calls [], ?_, ?_⟩
  · intro seen label domain h
    rw [check_subdomain_fresh resp mr seen label domain h]
    exact ⟨rfl, List.mem_cons_self ..⟩
  · intro seen label domain h
    exact check_subdomain_seen resp mr seen label domain h

theorem claim_C1_witness :
    ((check_subdomain (fun _ _ => AttemptOutcome.error) 2 [] "a" "example.com").trace =
        Event.insert (fqcOf "a" "example.com") ::
          (probe ((fun _ _ => AttemptOutcome.error) (fqcOf "a" "example.com"))
            (fqcOf "a" "example.com") 2).2
      ∧ fqcOf "a" "example.com" ∈
          (check_subdomain (fun _ _ => AttemptOutcome.error) 2 [] "a" "example.com").seen)
    ∧ check_subdomain (fun _ _ => AttemptOutcome.error) 2 [fqcOf "a" "example.com"]
        "a" "example.com" = ⟨none, [fqcOf "a" "example.com"], []⟩ :=
  ⟨(claim_C1 (fun _ _ => AttemptOutcome.error) 2 [] (fqcOf "a" "example.com")).2.1
      [] "a" "example.com" (List.not_mem_nil _),
   (claim_C1 (fun _ _ => AttemptOutcome.error) 2 [] (fqcOf "a" "example.com")).2.2
      [fqcOf "a" "example.com"] "a" "example.com" (List.mem_cons_self ..)⟩

/-- C2 as stated is false: a probe whose two attempts both come back with a
non-200 status makes the two attempts back to back — the trace holds two
network calls and no sleep at all, while the claim requires a wait of
`baseDelay * 1` between the consecutive attempts. -/
theorem claim_C2_counterexample :
    (probe (fun _ => AttemptOutcome.badStatus) "a.example.com" 2).1 = none
    ∧ (probe (fun _ => AttemptOutcome.badStatus) "a.example.com" 2).2.countP isProbe = 2
    ∧ sleepsOf (probe (fun _ => AttemptOutcome.badStatus) "a.example.com" 2).2 = [] := by
  refine ⟨rfl, rfl, rfl⟩

/-- C2 (amended): for every probe whose attempts all fail, `check_subdomain`
makes exactly `maxRetries` attempts and returns `None` without raising; a
wait of `baseDelay * (attempt + 1)` occurs after each attempt that raised a
connection/timeout/protocol error — including after the last one — while an
attempt that returned a non-200 status is retried immediately with no wait. -/
theorem claim_C2 (resp : Nat → AttemptOutcome) (fqc : String) (mr : Nat)
    (hfail : ∀ i ∈ List.range' 0 mr, ∀ tt, resp i ≠ AttemptOutcome.ok tt) :
    (probe resp fqc mr).1 = none
    ∧ (probe resp fqc mr).2.countP isProbe = mr
    ∧ sleepsOf (probe resp fqc mr).2 =
        (List.range' 0 mr).filterMap
          (fun i => match resp i with | .error => some (i + 1) | _ => none) :=
  probeFrom_all_fail resp fqc mr 0 hfail

theorem claim_C2_witness :
    (probe (fun _ => AttemptOutcome.error) "a.example.com" 2).1 = none
    ∧ (probe (fun _ => AttemptOutcome.error) "a.example.com" 2).2.countP isProbe = 2
    ∧ sleepsOf (probe (fun _ => AttemptOutcome.error) "a.example.com" 2).2 =
        (List.range' 0 2).filterMap
          (fun i => match (fun _ => AttemptOutcome.error) i with
            | AttemptOutcome.error => some (i + 1) | _ => none) :=
  claim_C2 (fun _ => AttemptOutcome.error) "a.example.com" 2
    (fun _ _ _ h => AttemptOutcome.noConfusion h)

/-- C3: at every instant of a scan, the number of dispatched-but-not-
completed probe operations is at most the configured limit: from a state
where no task holds the limiter (the start of a chunk), every state the
nondeterministic scheduler can reach keeps the in-flight count within
`concurrent_requests`. -/
theorem claim_C3 (s₀ s : SemState) (hinit : ∀ t ∈ s₀.tasks, isRunning t = false)
    (h : Relation.ReflTransGen SemStep s₀ s) : inFlight s ≤ s.limit := by
  refine inFlight_le_limit s₀ s ?_ h
  have h0 : inFlight s₀ = 0 := by
    simp only [inFlight, List.countP_eq_zero]
    intro t ht
    simp [hinit t ht]
  omega

theorem claim_C3_witness :
    inFlight ⟨50, [TaskPhase.pending 2, TaskPhase.pending 2, TaskPhase.pending 2]⟩ ≤
      (SemState.mk 50 [TaskPhase.pending 2, TaskPhase.pending 2, TaskPhase.pending 2]).limit :=
  claim_C3 _ _ (by decide) Relation.ReflTransGen.refl

/-- C4: for every length `L ≥ 1`, `generate_subdomains L` returns exactly
`36 ^ L` pairwise-distinct strings, each of exactly `L` characters, every
character drawn from the alphabet `{a-z, 0-9}`, in strictly increasing
lexicographic order over the alphabet; for `L = 1` the result is exactly
`"a" … "z"` followed by `"0" … "9"`. -/
theorem claim_C4 (L : Nat) (_hL : 1 ≤ L) :
    (generate_subdomains L).length = 36 ^ L
    ∧ (generate_subdomains L).Nodup
    ∧ (∀ s ∈ generate_subdomains L, s.length = L)
    ∧ (∀ s ∈ generate_subdomains L, ∀ ch ∈ s.data, ch ∈ chars)
    ∧ (generate_subdomains L).Pairwise strLexLt
    ∧ generate_subdomains 1 =
        ["a", "b", "c", "d", "e", "f", "g", "h", "i", "j", "k", "l", "m",
         "n", "o", "p", "q", "r", "s", "t", "u", "v", "w", "x", "y", "z",
         "0", "1", "2", "3", "4", "5", "6", "7", "8", "9"] :=
  ⟨generate_length L, generate_nodup L, fun _ hs => generate_mem_length hs,
   fun _ hs => generate_mem_chars hs, generate_pairwise L, generate_one⟩

theorem claim_C4_witness :
    1 ≤ 2 ∧ (generate_subdomains 2).length = 36 ^ 2 :=
  ⟨by decide, (claim_C4 2 (by decide)).1⟩

/-- C5 as stated is false: on a 200 response whose body contains a `<title>`
tag that is present but empty (or has several children), BeautifulSoup's
`soup.title` is truthy while `soup.title.string` is Python `None`, so
`check_subdomain` returns a `Found` whose title is `None` — not a string and
not the `"No Title"` sentinel. -/
theorem claim_C5_counterexample :
    (probe (fun _ => AttemptOutcome.ok (some none)) "a.example.com" 2).1 =
      some ("a.example.com", none)
    ∧ (none : Option String).isSome = false :=
  ⟨rfl, rfl⟩

/-- C5 (amended): for every probe whose first status-200 attempt parses to
title tag `tt`, the probe returns `Found (fqc, title)` with
`title = soup.title.string` when the tag is present (which is the title text
when the tag has a single string child but may be Python `None`), and the
sentinel `"No Title"` when no title tag exists; the returned title is hence
an `Optional[str]`, not always a string. -/
theorem claim_C5 (resp : Nat → AttemptOutcome) (fqc : String) (mr i : Nat)
    (tt : Option (Option String)) (hi : i < mr) (hok : resp i = AttemptOutcome.ok tt)
    (hfirst : ∀ j < i, ∀ tt', resp j ≠ AttemptOutcome.ok tt') :
    (probe resp fqc mr).1 = some (fqc, titleOf tt) :=
  probeFrom_first_ok resp fqc mr 0 i tt (Nat.zero_le i) (by omega) hok
    (fun j _ hj tt' => hfirst j hj tt')

theorem claim_C5_witness :
    (probe (fun j => if j = 1 then AttemptOutcome.ok (some (some "Hi"))
        else AttemptOutcome.error) "a.example.com" 3).1 =
      some ("a.example.com", titleOf (some (some "Hi"))) :=
  claim_C5 _ "a.example.com" 3 1 (some (some "Hi")) (by decide) (by decide)
    (fun j hj tt' h => by
      have hj0 : j = 0 := by omega
      subst hj0
      simp at h)

/-- C6 as stated is false: calling the generator with length `0 < 1` does not
fail — it returns the singleton list holding the empty string. -/
theorem claim_C6_counterexample : generate_subdomains 0 = [""] := rfl

/-- C6 (amended): the generator performs no argument validation: called with
length `0`, it totally returns the single length-0 string over the alphabet
(the `36 ^ 0 = 1` Cartesian-product convention) instead of failing at call
time.  (A negative length cannot be expressed here; in Python
`itertools.product` does raise `ValueError` for a negative `repeat`.) -/
theorem claim_C6 :
    (generate_subdomains 0).length = 36 ^ 0
    ∧ ∀ s ∈ generate_subdomains 0, s.length = 0 :=
  ⟨rfl, by decide⟩

/-- C7 as stated is false: the `processed` value resets at each new length,
so over a whole domain scan with `chunkSize = 10` and lengths 1..2 the
emitted sequence starts `10, 20, 30, 36, 10, …` — not strictly increasing
across lengths. -/
theorem claim_C7_counterexample :
    ¬ List.Chain' (· < ·) (domainProcessed 9 1 2) := by
  rw [domainProcessed]
  rw [show List.range' 1 (2 + 1 - 1) = [1, 2] from rfl]
  simp only [List.flatMap_cons, List.flatMap_nil, List.append_nil]
  rw [processedFrom_chunksOf, processedFrom_chunksOf, generate_length, generate_length]
  intro hchain
  rw [List.chain'_append] at hchain
  obtain ⟨-, -, hcross⟩ := hchain
  have h36 : (processedNat 9 0 (36 ^ 1)).getLast? = some 36 := by decide
  have h10 : (processedNat 9 0 (36 ^ 2)).head? = some 10 := by decide
  have := hcross 36 h36 10 h10
  omega

/-- C7 (amended): within each single length the emitted `processed` values
are strictly increasing (they reset when the next length starts), and for a
length with total 36 and chunk size 10 exactly the four values
10, 20, 30, 36 are emitted, in that order. -/
theorem claim_C7 (c L : Nat) :
    List.Chain' (· < ·) (processedFrom 0 (chunksOf c (generate_subdomains L)))
    ∧ processedFrom 0 (chunksOf 9 (generate_subdomains 1)) = [10, 20, 30, 36] := by
  constructor
  · rw [processedFrom_chunksOf]
    exact processedNat_chain c _ 0
  · rw [processedFrom_chunksOf]
    decide

/-- C8: a fresh engine's `scan_domain(domain, minLength, maxLength)` returns
the complete aggregate of `Found` outcomes over all lengths of the inclusive
range, lengths ascending, generator order within each length — chunking
(chunk `k` fully collected and appended before chunk `k + 1` starts) neither
loses, duplicates nor reorders results. -/
theorem claim_C8 (resp : String → Nat → AttemptOutcome) (mr c : Nat)
    (domain : String) (minLength maxLength : Nat) :
    (scan_domain resp mr c domain minLength maxLength []).results =
      specFoundOutcomes resp mr domain minLength maxLength :=
  (scan_domain_spec resp mr c domain minLength maxLength).1

/-- C9: with a fixed deterministic mapping from FQC to probe responses, any
two fresh-engine runs of `scan_domain` over the same domain and length range
— even with different chunk sizes — produce the same `Found` outcomes. -/
theorem claim_C9 (resp : String → Nat → AttemptOutcome) (mr c₁ c₂ : Nat)
    (domain : String) (minLength maxLength : Nat) :
    (scan_domain resp mr c₁ domain minLength maxLength []).results =
      (scan_domain resp mr c₂ domain minLength maxLength []).results := by
  rw [(scan_domain_spec resp mr c₁ domain minLength maxLength).1,
    (scan_domain_spec resp mr c₂ domain minLength maxLength).1]

/-- C10: running `scan_domain` a second time on the same engine instance
with the same domain and length range returns the empty result list: every
FQC is already in the seen set, so every `check_subdomain` call
short-circuits to `None` — no result, no seen-set change, no network call,
no sleep. -/
theorem claim_C10 (resp : String → Nat → AttemptOutcome) (mr c : Nat)
    (domain : String) (minLength maxLength : Nat) :
    scan_domain resp mr c domain minLength maxLength
        (scan_domain resp mr c domain minLength maxLength []).seen =
      ⟨[], (scan_domain resp mr c domain minLength maxLength []).seen, []⟩ := by
  apply scan_domain_all_seen
  intro l hl
  rw [(scan_domain_spec resp mr c domain minLength maxLength).2, List.mem_reverse]
  exact List.mem_map_of_mem _ hl

end DomainScan
